import Mathlib

/-!
Verification development for the "tones" practice-session generator.

The definitions below are shallow embeddings of the Python sources:
 * `src/tones9-la0-modular.py` (KeyBuilder, ChunkGenerator, PracticeSession)
 * `src/practice.py`           (Key, Gen, Session)
 * `src/progression.py`        (Key.solfege_to_note, ProgressionSession)

Conventions used throughout:
 * note spellings are the 20 keys of the `NOTE_TO_SEMITONE` table, embedded
   as the inductive `NoteName` (so the table lookup is total, exactly as it
   is on every value the programs ever look up);
 * octaves are `Nat` (the programs only ever use octaves 3-6, and the
   expansion loop only increases the running octave);
 * random draws (`random.randint`, `random.randrange`, `random.choice`) are
   passed in as explicit arguments, with the draw ranges appearing as
   hypotheses of the theorems.
-/

/-- The 20 note spellings that occur as keys of `NOTE_TO_SEMITONE`
(`tones9-la0-modular.py` lines 28-36, identical table `NOTE_TO_SEMI` in
`practice.py` and `progression.py`).  `Cs` is the spelling `C#`, etc. -/
inductive NoteName where
  | C | Cs | Db | D | Ds | Eb | E | Fb | Es | F
  | Fs | Gb | G | Gs | Ab | A | As | Bb | B | Cb
  deriving DecidableEq, Repr

open NoteName

/-- `NOTE_TO_SEMITONE` / `NOTE_TO_SEMI`: note spelling to semitone (0-11). -/
def NOTE_TO_SEMITONE : NoteName → Nat
  | .C => 0 | .Cs => 1 | .Db => 1
  | .D => 2 | .Ds => 3 | .Eb => 3
  | .E => 4 | .Fb => 4 | .Es => 5
  | .F => 5 | .Fs => 6 | .Gb => 6
  | .G => 7 | .Gs => 8 | .Ab => 8
  | .A => 9 | .As => 10 | .Bb => 10
  | .B => 11 | .Cb => 11

/-- The spelling as it appears in the Python source strings. -/
def spellStr : NoteName → String
  | .C => "C" | .Cs => "C#" | .Db => "Db"
  | .D => "D" | .Ds => "D#" | .Eb => "Eb"
  | .E => "E" | .Fb => "Fb" | .Es => "E#"
  | .F => "F" | .Fs => "F#" | .Gb => "Gb"
  | .G => "G" | .Gs => "G#" | .Ab => "Ab"
  | .A => "A" | .As => "A#" | .Bb => "Bb"
  | .B => "B" | .Cb => "Cb"

/-- An element of an expanded scale: spelling plus octave
(the Python code stores the string `f"{note}{octave}"`). -/
abbrev ExpNote := NoteName × Nat

/-- Default element used for list indexing (the Python code indexes
directly; every theorem keeps its indices in bounds). -/
def dfltNote : ExpNote := (NoteName.C, 0)

/-- Absolute pitch `octave*12 + pitch class` of an expanded-scale note. -/
def absPitch (e : ExpNote) : Nat := e.2 * 12 + NOTE_TO_SEMITONE e.1

/-- Render an expanded note the way the source renders it: `f"{note}{octave}"`. -/
def render (e : ExpNote) : String := spellStr e.1 ++ toString e.2

/-- `KEY_SIGNATURES` of `tones9-la0-modular.py` = `KEY_SIGS` of `practice.py`. -/
def KEY_SIGNATURES : List (List NoteName) :=
  [[C,  D,  E,  F,  G,  A,  B],
   [G,  A,  B,  C,  D,  E,  Gb],
   [F,  G,  A,  Bb, C,  D,  E],
   [D,  E,  Gb, G,  A,  B,  Db],
   [A,  B,  Db, D,  E,  Gb, Ab],
   [E,  Gb, Ab, A,  B,  Db, Eb],
   [B,  Db, Eb, E,  Gb, Ab, Bb],
   [Gb, Ab, Bb, B,  Db, Eb, F],
   [Bb, C,  D,  Eb, F,  G,  A],
   [Eb, F,  G,  Ab, Bb, C,  D],
   [Ab, Bb, C,  Db, Eb, F,  G],
   [Db, Eb, F,  Gb, Ab, Bb, C],
   [Gb, Ab, Bb, B,  Db, Eb, F],
   [B,  Db, Eb, E,  Gb, Ab, Bb]]

/-! ## Scale expansion

`KeyBuilder._expand` (`tones9-la0-modular.py` lines 75-92) and
`Key.__post_init__` (`practice.py` lines 45-56) run the identical loop:

```
out, octave, prev = [], min_octave, None
while octave <= max_octave:
    for note in signature:
        if prev and SEMI[prev] > SEMI[note]:
            octave += 1
            if octave > max_octave: break
        out.append(f"{note}{octave}")
        prev = note
    else: continue
    break
```

`expandCycle` is one pass of the inner `for` loop (returning the notes it
appended plus the loop state, with `broke` recording whether the inner
`break` fired); `expandLoop` is the outer `while`, driven by fuel.  For any
signature whose 7 spellings are pairwise distinct, every full cycle after
the first increments the octave at least once, so `maxOct + 2 - minOct`
cycles of fuel are enough to reproduce the Python loop exactly. -/

/-- The wrap-around test `prev and SEMI[prev] > SEMI[note]`. -/
def wrapInc (prev : Option NoteName) (n : NoteName) : Bool :=
  match prev with
  | some p => decide (NOTE_TO_SEMITONE n < NOTE_TO_SEMITONE p)
  | none => false

/-- Loop state of the expansion: running octave, previous note, and whether
the inner `break` fired. -/
structure ExpState where
  oct : Nat
  prev : Option NoteName
  broke : Bool
  deriving DecidableEq, Repr

/-- One pass of the inner `for note in signature` loop. -/
def expandCycle (maxOct : Nat) : List NoteName → Nat → Option NoteName →
    List ExpNote × ExpState
  | [], oct, prev => ([], ⟨oct, prev, false⟩)
  | n :: rest, oct, prev =>
    if wrapInc prev n then
      if maxOct < oct + 1 then ([], ⟨oct + 1, prev, true⟩)
      else
        let r := expandCycle maxOct rest (oct + 1) (some n)
        ((n, oct + 1) :: r.1, r.2)
    else
      let r := expandCycle maxOct rest oct (some n)
      ((n, oct) :: r.1, r.2)

/-- The outer `while octave <= max_octave` loop. -/
def expandLoop (sig : List NoteName) (maxOct : Nat) :
    Nat → Nat → Option NoteName → List ExpNote
  | 0, _, _ => []
  | fuel + 1, oct, prev =>
    if oct ≤ maxOct then
      let r := expandCycle maxOct sig oct prev
      if r.2.broke then r.1
      else r.1 ++ expandLoop sig maxOct fuel r.2.oct r.2.prev
    else []

/-- `KeyBuilder._expand` / `Key.__post_init__`. -/
def expand (sig : List NoteName) (minOct maxOct : Nat) : List ExpNote :=
  expandLoop sig maxOct (maxOct + 2 - minOct) minOct none

/-- `KeyBuilder.degree` / `Key.degree`: index of the spelling (octave
stripped) inside the signature. -/
def degreeOf (sig : List NoteName) (e : ExpNote) : Nat := sig.indexOf e.1

/-! ## Chunk generators

`ChunkGenerator` (`tones9-la0-modular.py` lines 155-191) and `Gen`
(`practice.py` lines 81-106).  The random draws are explicit arguments. -/

/-- `wrap(index, modulus) = (index + modulus) % modulus` on Python ints;
`Int.emod` agrees with Python `%` for a positive modulus. -/
def wrapInt (i m : Int) : Int := (i + m) % m

/-- `wrap` applied to the always-nonnegative arpeggio cursor. -/
def wrapNat (i m : Nat) : Nat := (i + m) % m

/-- `random_chunk`: `random.choices(self.scale, k=size)`, the `size`
uniform draws given by `draw` (reduced into range by `%`). -/
def random_chunk (scale : List ExpNote) (size : Nat) (draw : Nat → Nat) :
    List ExpNote :=
  (List.range size).map fun i => scale.getD (draw i % scale.length) dfltNote

/-- `scale_chunk`: `size` consecutive notes from `start`, direction
`step = 1` (ascending) or `-1`, every index wrapped. -/
def scale_chunk (scale : List ExpNote) (size start : Nat) (asc : Bool) :
    List ExpNote :=
  let step : Int := if asc then 1 else -1
  (List.range size).map fun (i : Nat) =>
    scale.getD (wrapInt ((start : Int) + (i : Int) * step) scale.length).toNat dfltNote

/-- `intervals = (2, 2, 3)   # 1-3-5 pattern`. -/
def intervals : List Nat := [2, 2, 3]

/-- The arpeggio cursor walk: `k` indices starting at `cursor`, the `i`-th
step advancing by `intervals[i % 3]` with wrap. -/
def arpIndices (len : Nat) : Nat → Nat → Nat → List Nat
  | 0, _, _ => []
  | k + 1, i, cursor =>
    cursor :: arpIndices len k (i + 1) (wrapNat (cursor + intervals.getD (i % 3) 0) len)

/-- Body shared by `_arpeggio_like` (tones9) and `arpeggio_chunk`
(practice.py), which are line-identical: append the note at the cursor,
then step by the cyclic `(2,2,3)` pattern. -/
def arpeggio_notes (scale : List ExpNote) (size root : Nat) : List ExpNote :=
  (arpIndices scale.length size 0 root).map fun j => scale.getD j dfltNote

/-- `ChunkGenerator._arpeggio_like(block=...)`: the `block` flag is dead
(`if block: return notes` / `return notes` return the same list). -/
def arpeggioLike (scale : List ExpNote) (size root : Nat) (block : Bool) :
    List ExpNote :=
  let notes := arpeggio_notes scale size root
  if block then notes else notes

/-- `arpeggio_chunk` (both files). -/
def arpeggio_chunk (scale : List ExpNote) (size root : Nat) : List ExpNote :=
  arpeggioLike scale size root false

/-- `ChunkGenerator.chord_chunk` of `tones9-la0-modular.py`:
`self._arpeggio_like(block=True)`. -/
def chord_chunk_modular (scale : List ExpNote) (size root : Nat) : List ExpNote :=
  arpeggioLike scale size root true

/-- `Gen.triad` of `practice.py` (= its `chord_chunk` and
`chord_melody_chunk`): closed triad with inversion `inv ∈ {0,1,2}`,
root drawn from `randrange(0, len-9)`. -/
def triad (scale : List ExpNote) (root inv : Nat) : List ExpNote :=
  let idx : List Nat :=
    if inv = 0 then [root, root + 2, root + 4]
    else if inv = 1 then [root + 2, root + 4, root + 7]
    else [root + 4, root + 7, root + 9]
  idx.map fun i => scale.getD i dfltNote

/-! ## Cadence (`practice.py` `Session._cadence`, lines 116-125) -/

/-- Tonality selected by `--tonality`. -/
inductive Tonality where
  | major | minor
  deriving DecidableEq, Repr

/-- The 0-based cadence roots: `[0,3,4,0]` for major, `[5,1,2,5]` otherwise. -/
def cadRoots : Tonality → List Nat
  | .major => [0, 3, 4, 0]
  | .minor => [5, 1, 2, 5]

/-- `Session._cadence`: for each root `r` the chord
`[scale[r], scale[r+2], scale[r+4]]` together with its degree labels. -/
def cadence (sig : List NoteName) (scale : List ExpNote) (ton : Tonality) :
    List (List ExpNote × List Nat) :=
  (cadRoots ton).map fun r =>
    let notes := [scale.getD r dfltNote, scale.getD (r + 2) dfltNote,
                  scale.getD (r + 4) dfltNote]
    (notes, notes.map fun n => degreeOf sig n)

/-! ## Session loop (`practice.py` `Session.run` lines 140-169, and
`tones9-la0-modular.py` `PracticeSession.run` lines 221-261)

Per iteration the loop generates a chunk, discards it (`continue`) when it
has fewer than 3 notes, otherwise plays the cadence when
`count % CAD_FREQ == 0`, plays the chunk, and increments `count`.  The
chunk-shape draw and the optional reversal only shape the generated note
list, so an iteration is modelled by the note list it generated. -/

/-- An observable event of the session loop. -/
inductive SEvent where
  | cadence
  | play (notes : List ExpNote)
  deriving DecidableEq, Repr

/-- The session main loop over the finite list of generated chunks, with
chunk counter `count` (starts at 0). -/
def sessionTrace (K : Nat) : List (List ExpNote) → Nat → List SEvent
  | [], _ => []
  | notes :: rest, count =>
    if notes.length < 3 then sessionTrace K rest count
    else
      (if count % K = 0 then [SEvent.cadence] else []) ++
        (SEvent.play notes :: sessionTrace K rest (count + 1))

/-- Reference behaviour: number the playable chunks consecutively from
`count` and put a cadence exactly before those whose number is `0 mod K`. -/
def cadencedPlays (K : Nat) (chunks : List (Nat × List ExpNote)) : List SEvent :=
  chunks.flatMap fun p =>
    (if p.1 % K = 0 then [SEvent.cadence] else []) ++ [SEvent.play p.2]

/-! ## progression.py: solfège, chords, progressions, labels -/

/-- The 17 solfège syllables of `SOLFEGE_TO_SEMI` (`progression.py` lines
26-29), capitalised because `do` is a Lean keyword. -/
inductive Solfege where
  | Do | Di | Ra | Re | Ri | Me | Mi | Fa | Fi | Se | Sol | Si | Le | La | Li | Te | Ti
  deriving DecidableEq, Repr

/-- `SOLFEGE_TO_SEMI`: semitone offset of each syllable relative to Do. -/
def SOLFEGE_TO_SEMI : Solfege → Nat
  | .Do => 0 | .Di => 1 | .Ra => 1 | .Re => 2 | .Ri => 3 | .Me => 3 | .Mi => 4
  | .Fa => 5 | .Fi => 6 | .Se => 6 | .Sol => 7 | .Si => 8 | .Le => 8 | .La => 9
  | .Li => 10 | .Te => 10 | .Ti => 11

/-- `SOLFEGE_PRONUNCIATION` (`progression.py` lines 32-36). -/
def SOLFEGE_PRON : Solfege → String
  | .Do => "doe" | .Re => "ray" | .Mi => "me" | .Fa => "far" | .Sol => "so"
  | .La => "la" | .Ti => "tea" | .Di => "dee" | .Ra => "rah" | .Ri => "ree"
  | .Me => "may" | .Fi => "fee" | .Se => "say" | .Si => "see" | .Le => "lay"
  | .Li => "lee" | .Te => "tay"

/-- `MINOR_MODE_OFFSET = 9  # La to Do`. -/
def MINOR_MODE_OFFSET : Nat := 9

/-- Chord qualities occurring in `CHORD_DEFS`. -/
inductive Quality where
  | minor | major | dominant | minor7 | major7
  deriving DecidableEq, Repr

/-- `'quality'` rendered as in the source strings. -/
def qualityStr : Quality → String
  | .minor => "minor" | .major => "major" | .dominant => "dominant"
  | .minor7 => "minor7" | .major7 => "major7"

/-- Chord positions `'1' '3' '5' '7'`. -/
inductive Pos where
  | p1 | p3 | p5 | p7
  deriving DecidableEq, Repr

/-- Position rendered as in the source strings. -/
def posStr : Pos → String
  | .p1 => "1" | .p3 => "3" | .p5 => "5" | .p7 => "7"

/-- `['1','3','5','7'][i] if i < 4 else '1'` (used by
`_analyze_label_ambiguities`) which is also
`position_map.get(i, '1')` (used by `get_random_melody_note`). -/
def posOf (i : Nat) : Pos :=
  if i < 4 then [Pos.p1, Pos.p3, Pos.p5, Pos.p7].getD i Pos.p1 else Pos.p1

/-- The keys of `CHORD_DEFS` (`progression.py` lines 57-91; the duplicated
`sol7_dominant` entry re-binds the same value). -/
inductive ChordName where
  | la_minor | re_minor | mi_minor | do_major | fa_major | sol_major
  | mi_dominant | re_dominant | mi7_dominant | la_minor_dm | re_minor_gm
  | fa_major_bb | la7_dominant | re7_dominant | sol7_dominant | fa_minor
  | re_minor7 | do_major7 | fa_major7
  deriving DecidableEq, Repr

/-- A `CHORD_DEFS` entry: `'degrees'` and `'quality'`. -/
structure ChordDef where
  degrees : List Solfege
  quality : Quality
  deriving DecidableEq, Repr

open Solfege in
/-- `CHORD_DEFS`. -/
def CHORD_DEFS : ChordName → ChordDef
  | .la_minor      => ⟨[La, Do, Mi], .minor⟩
  | .re_minor      => ⟨[Re, Fa, La], .minor⟩
  | .mi_minor      => ⟨[Mi, Sol, Ti], .minor⟩
  | .do_major      => ⟨[Do, Mi, Sol], .major⟩
  | .fa_major      => ⟨[Fa, La, Do], .major⟩
  | .sol_major     => ⟨[Sol, Ti, Re], .major⟩
  | .mi_dominant   => ⟨[Mi, Si, Ti, Re], .dominant⟩
  | .re_dominant   => ⟨[Re, Fi, La, Do], .dominant⟩
  | .mi7_dominant  => ⟨[Mi, Si, Ti, Re], .dominant⟩
  | .la_minor_dm   => ⟨[La, Do, Mi], .minor⟩
  | .re_minor_gm   => ⟨[Re, Fa, La], .minor⟩
  | .fa_major_bb   => ⟨[Fa, La, Do], .major⟩
  | .la7_dominant  => ⟨[La, Di, Mi, Sol], .dominant⟩
  | .re7_dominant  => ⟨[Re, Fi, La, Do], .dominant⟩
  | .sol7_dominant => ⟨[Sol, Ti, Re, Fa], .dominant⟩
  | .fa_minor      => ⟨[Fa, Le, Do], .minor⟩
  | .re_minor7     => ⟨[Re, Fa, La, Do], .minor7⟩
  | .do_major7     => ⟨[Do, Mi, Sol, Ti], .major7⟩
  | .fa_major7     => ⟨[Fa, La, Do, Mi], .major7⟩

/-- The keys of `PROGRESSIONS` (`progression.py` lines 94-135). -/
inductive ProgName where
  | dark_eyes | minor_swing | superpop | primary | primary_minor
  | all_of_me | autumn_leaves_start
  deriving DecidableEq, Repr

open ChordName in
/-- `PROGRESSIONS[...]['chords']`. -/
def progChords : ProgName → List ChordName
  | .dark_eyes =>
      [mi7_dominant, la_minor_dm, mi7_dominant, fa_major_bb,
       re_minor_gm, la_minor_dm, mi7_dominant, la_minor_dm]
  | .minor_swing =>
      [la_minor, la_minor, re_minor, re_minor,
       mi_dominant, mi_dominant, la_minor, la_minor,
       re_minor, re_minor, la_minor, la_minor,
       mi_dominant, mi_dominant, la_minor, mi_dominant]
  | .superpop => [do_major, sol_major, la_minor, fa_major]
  | .primary => [do_major, fa_major, la_minor, re_minor, sol_major, do_major]
  | .primary_minor =>
      [la_minor, re_minor, sol_major, do_major, mi_dominant, la_minor]
  | .all_of_me =>
      [do_major, do_major, mi7_dominant, mi7_dominant,
       la7_dominant, la7_dominant, re_minor, re_minor,
       mi7_dominant, mi7_dominant, la_minor, la_minor,
       re7_dominant, re7_dominant, sol7_dominant, sol7_dominant,
       do_major, do_major, mi7_dominant, mi7_dominant,
       la7_dominant, la7_dominant, re_minor, re_minor,
       fa_major, fa_minor, do_major, la7_dominant,
       re_minor, sol7_dominant, do_major, sol7_dominant]
  | .autumn_leaves_start =>
      [re_minor7, sol7_dominant, do_major7, fa_major7,
       re_minor7, sol7_dominant, do_major7, fa_major7]

/-- The `(degree, position)` pairs of a chord, as enumerated by
`for i, degree in enumerate(degrees)` with `position = ['1','3','5','7'][i]`. -/
def chordPairs (c : ChordName) : List (Solfege × Pos) :=
  (CHORD_DEFS c).degrees.enum.map fun p => (p.2, posOf p.1)

/-- The set of qualities the pair `k` appears under across the progression:
the value `label_to_qualities[k]` built by `_analyze_label_ambiguities`
(`progression.py` lines 369-389).  The Python code iterates
`set(self.chord_sequence)` and accumulates a `set` per key, so the result
is order-independent and equals this `Finset`. -/
def qualSet (prog : List ChordName) (k : Solfege × Pos) : Finset Quality :=
  ((prog.dedup.filter fun c => k ∈ chordPairs c).map
    fun c => (CHORD_DEFS c).quality).toFinset

/-- `label_key in self.label_ambiguities`: the pair appears under more than
one quality (`len(v) > 1` filter at line 389). -/
def needsQualifier (prog : List ChordName) (k : Solfege × Pos) : Bool :=
  decide (1 < (qualSet prog k).card)

/-- The label built by `get_random_melody_note` (`progression.py` lines
424-450) for chosen degree `chosen` of chord `c`: pronunciation and
position, plus the quality qualifier exactly when the label key is in
`label_ambiguities`. -/
def melodyLabel (prog : List ChordName) (c : ChordName) (chosen : Solfege) :
    String :=
  let degrees := (CHORD_DEFS c).degrees
  let position := posOf (degrees.indexOf chosen)
  let pron := SOLFEGE_PRON chosen
  if needsQualifier prog (chosen, position) then
    pron ++ ", " ++ posStr position ++ ", " ++ qualityStr (CHORD_DEFS c).quality
  else
    pron ++ ", " ++ posStr position

/-- Declarative reading of "the pair occurs in the active progression under
more than one chord quality". -/
def ambiguousSpec (prog : List ChordName) (k : Solfege × Pos) : Prop :=
  ∃ c1 ∈ prog, ∃ c2 ∈ prog,
    (CHORD_DEFS c1).quality ≠ (CHORD_DEFS c2).quality ∧
      k ∈ chordPairs c1 ∧ k ∈ chordPairs c2

instance (prog : List ChordName) (k : Solfege × Pos) :
    Decidable (ambiguousSpec prog k) :=
  inferInstanceAs (Decidable (∃ c1 ∈ prog, ∃ c2 ∈ prog,
    (CHORD_DEFS c1).quality ≠ (CHORD_DEFS c2).quality ∧
      k ∈ chordPairs c1 ∧ k ∈ chordPairs c2))

/-! ## progression.py `Key.solfege_to_note` (lines 151-186) -/

/-- The key mode (`'minor'` compared by string, anything else major). -/
inductive PMode where
  | major | minor
  deriving DecidableEq, Repr

/-- `progression.py`'s frozen `Key`: signature plus mode. -/
structure PKey where
  sig : List NoteName
  mode : PMode
  deriving DecidableEq, Repr

/-- `NOTE_TO_SEMI.items()` in dict insertion order, as iterated by the two
search loops of `solfege_to_note`. -/
def NOTE_TO_SEMI_ITEMS : List (NoteName × Nat) :=
  [(C, 0), (Cs, 1), (Db, 1),
   (D, 2), (Ds, 3), (Eb, 3),
   (E, 4), (Fb, 4), (Es, 5),
   (F, 5), (Fs, 6), (Gb, 6),
   (G, 7), (Gs, 8), (Ab, 8),
   (A, 9), (As, 10), (Bb, 10),
   (B, 11), (Cb, 11)]

/-- `'#' not in note and 'b' not in note` (checked over the characters of
the spelling). -/
def isNaturalSpelling (n : NoteName) : Bool :=
  !((spellStr n).data.contains '#') && !((spellStr n).data.contains 'b')

/-- The target pitch class computed by `solfege_to_note`:
`(base_semi + semi_offset) % 12` in major (base = `sig[0]`), and
`(base_semi + semi_offset - MINOR_MODE_OFFSET) % 12` in minor
(base = `sig[5]`); the subtraction runs on Python ints whose `%` agrees
with `Int.emod`. -/
def targetSemi (k : PKey) (s : Solfege) : Nat :=
  match k.mode with
  | .major =>
      (NOTE_TO_SEMITONE (k.sig.getD 0 NoteName.C) + SOLFEGE_TO_SEMI s) % 12
  | .minor =>
      ((((NOTE_TO_SEMITONE (k.sig.getD 5 NoteName.C) : Int) +
          SOLFEGE_TO_SEMI s - MINOR_MODE_OFFSET) % 12)).toNat

/-- The two search loops: first a natural spelling with the target
semitone, then any spelling with it. -/
def findSpelling (t : Nat) : Option NoteName :=
  match NOTE_TO_SEMI_ITEMS.find? fun p =>
      decide (p.2 = t) && isNaturalSpelling p.1 with
  | some p => some p.1
  | none => (NOTE_TO_SEMI_ITEMS.find? fun p => decide (p.2 = t)).map Prod.fst

/-- `Key.solfege_to_note(solfege, octave)`; the final branch is the
`return f"C{octave}"` fallback. -/
def solfege_to_note (k : PKey) (s : Solfege) (octave : Nat) : String :=
  match findSpelling (targetSemi k s) with
  | some n => spellStr n ++ toString octave
  | none => "C" ++ toString octave

/-! ## progression.py `ProgressionSession.wait_with_pause` (lines 404-422)

```
start_time = time.time()
while time.time() - start_time < duration:
    if should_stop(): return False
    if is_paused():
        pygame.mixer.pause()
        while is_paused():
            time.sleep(0.1)
            if should_stop(): return False
        pygame.mixer.unpause()
    time.sleep(0.05)
return True
```

Discrete-time model: the wall clock is a millisecond counter advanced only
by the `sleep` calls; the listener-owned flags are functions of the clock;
`fuel` bounds the number of loop iterations (`none` = fuel exhausted, which
never happens for the schedules of the theorems).  The result records the
returned Bool, the exit clock, the milliseconds slept outside the paused
loop (`active`), and the mixer pause/resume calls in order. -/

/-- A mixer call observable from the wait loop. -/
inductive WEv where
  | pauseAll
  | resumeAll
  deriving DecidableEq, Repr

/-- The inner `while is_paused()` loop: sleep 100ms, then check stop. -/
def pauseWait (stopF pausedF : Nat → Bool) : Nat → Nat → Option (Bool × Nat)
  | 0, _ => none
  | fuel + 1, clock =>
    if pausedF clock then
      let c := clock + 100
      if stopF c then some (false, c) else pauseWait stopF pausedF fuel c
    else some (true, clock)

/-- The outer wait loop, started at `clock` with entry time `start`. -/
def waitLoop (stopF pausedF : Nat → Bool) (start dur : Nat) :
    Nat → Nat → Option (Bool × Nat × Nat × List WEv)
  | 0, _ => none
  | fuel + 1, clock =>
    if clock - start < dur then
      if stopF clock then some (false, clock, 0, [])
      else if pausedF clock then
        match pauseWait stopF pausedF fuel clock with
        | none => none
        | some (false, c) => some (false, c, 0, [WEv.pauseAll])
        | some (true, c) =>
          match waitLoop stopF pausedF start dur fuel (c + 50) with
          | none => none
          | some (r, c2, act, evs) =>
              some (r, c2, act + 50, WEv.pauseAll :: WEv.resumeAll :: evs)
      else
        match waitLoop stopF pausedF start dur fuel (clock + 50) with
        | none => none
        | some (r, c2, act, evs) => some (r, c2, act + 50, evs)
    else some (true, clock, 0, [])

/-- `wait_with_pause(duration)` entered at wall-clock time `start`. -/
def wait_with_pause (stopF pausedF : Nat → Bool) (start dur fuel : Nat) :
    Option (Bool × Nat × Nat × List WEv) :=
  waitLoop stopF pausedF start dur fuel start

/-- The octave bookkeeping between two consecutive expanded notes: the
octave of `b` is one more than that of `a` exactly when the pitch class of
`b` is numerically lower than that of `a` (the wrap-around rule), and the
same otherwise. -/
def wrapRel (a b : ExpNote) : Prop :=
  b.2 = if NOTE_TO_SEMITONE b.1 < NOTE_TO_SEMITONE a.1 then a.2 + 1 else a.2

/-- Cumulative scale-degree offset after `j` steps of the cyclic `(2,2,3)`
arpeggio pattern: a full cycle spans 7 degrees (one octave of the scale). -/
def cycOffs (j : Nat) : Nat := 7 * (j / 3) + [0, 2, 4].getD (j % 3) 0

/-- Cumulative `(2,2,3)` offset after `j` steps starting at pattern
phase `i` (the loop variable of the arpeggio walk). -/
def cycOffsFrom : Nat → Nat → Nat
  | _, 0 => 0
  | i, j + 1 => intervals.getD (i % 3) 0 + cycOffsFrom (i + 1) j

/-- C-major signature, the first entry of `KEY_SIGNATURES`. -/
def cmajor : List NoteName := [C, D, E, F, G, A, B]

/-- Executable check that consecutive absolute pitches strictly increase
(used to evaluate the property on the 14 concrete scales). -/
def strictAsc : List ExpNote → Bool
  | [] => true
  | [_] => true
  | a :: b :: t => decide (absPitch a < absPitch b) && strictAsc (b :: t)

/-! # Theorems -/

/-! ## Expansion: wrap-around chain and octave bound (claims C1, C2) -/

theorem semi_le_eleven (n : NoteName) : NOTE_TO_SEMITONE n ≤ 11 := by
  cases n <;> decide

theorem wrapRel_absPitch_le {a b : ExpNote} (h : wrapRel a b) :
    absPitch a ≤ absPitch b := by
  unfold wrapRel at h
  unfold absPitch
  by_cases hc : NOTE_TO_SEMITONE b.1 < NOTE_TO_SEMITONE a.1
  · rw [if_pos hc] at h
    have ha := semi_le_eleven a.1
    omega
  · rw [if_neg hc] at h
    omega

theorem expandCycle_nil (maxOct oct : Nat) (prev : Option NoteName) :
    expandCycle maxOct [] oct prev = ([], ⟨oct, prev, false⟩) := rfl

theorem expandCycle_cons_inc_fst {prev : Option NoteName} {n : NoteName}
    {maxOct oct : Nat} (hw : wrapInc prev n = true) (hb : oct + 1 ≤ maxOct)
    (rest : List NoteName) :
    (expandCycle maxOct (n :: rest) oct prev).1 =
      (n, oct + 1) :: (expandCycle maxOct rest (oct + 1) (some n)).1 := by
  simp [expandCycle, hw, Nat.not_lt.mpr hb]

theorem expandCycle_cons_inc_snd {prev : Option NoteName} {n : NoteName}
    {maxOct oct : Nat} (hw : wrapInc prev n = true) (hb : oct + 1 ≤ maxOct)
    (rest : List NoteName) :
    (expandCycle maxOct (n :: rest) oct prev).2 =
      (expandCycle maxOct rest (oct + 1) (some n)).2 := by
  simp [expandCycle, hw, Nat.not_lt.mpr hb]

theorem expandCycle_cons_brk_fst {prev : Option NoteName} {n : NoteName}
    {maxOct oct : Nat} (hw : wrapInc prev n = true) (hb : maxOct < oct + 1)
    (rest : List NoteName) :
    (expandCycle maxOct (n :: rest) oct prev).1 = [] := by
  simp [expandCycle, hw, hb]

theorem expandCycle_cons_brk_snd {prev : Option NoteName} {n : NoteName}
    {maxOct oct : Nat} (hw : wrapInc prev n = true) (hb : maxOct < oct + 1)
    (rest : List NoteName) :
    (expandCycle maxOct (n :: rest) oct prev).2 = ⟨oct + 1, prev, true⟩ := by
  simp [expandCycle, hw, hb]

theorem expandCycle_cons_noinc_fst {prev : Option NoteName} {n : NoteName}
    {maxOct oct : Nat} (hw : wrapInc prev n = false) (rest : List NoteName) :
    (expandCycle maxOct (n :: rest) oct prev).1 =
      (n, oct) :: (expandCycle maxOct rest oct (some n)).1 := by
  simp [expandCycle, hw]

theorem expandCycle_cons_noinc_snd {prev : Option NoteName} {n : NoteName}
    {maxOct oct : Nat} (hw : wrapInc prev n = false) (rest : List NoteName) :
    (expandCycle maxOct (n :: rest) oct prev).2 =
      (expandCycle maxOct rest oct (some n)).2 := by
  simp [expandCycle, hw]

/-- The notes appended by one inner cycle form a `wrapRel`-chain rooted at
the previously appended note. -/
theorem expandCycle_chain (maxOct : Nat) :
    ∀ (l : List NoteName) (oct : Nat) (p : NoteName),
      List.Chain' wrapRel ((p, oct) :: (expandCycle maxOct l oct (some p)).1)
  | [], oct, p => by
      rw [expandCycle_nil]
      exact List.chain'_singleton _
  | n :: rest, oct, p => by
      by_cases hw : NOTE_TO_SEMITONE n < NOTE_TO_SEMITONE p
      · have hwt : wrapInc (some p) n = true := by simp [wrapInc, hw]
        by_cases hb : oct + 1 ≤ maxOct
        · rw [expandCycle_cons_inc_fst hwt hb]
          refine List.chain'_cons.mpr ⟨?_, expandCycle_chain maxOct rest (oct + 1) n⟩
          unfold wrapRel
          simp [hw]
        · rw [expandCycle_cons_brk_fst hwt (by omega)]
          exact List.chain'_singleton _
      · have hwf : wrapInc (some p) n = false := by simp [wrapInc, hw]
        rw [expandCycle_cons_noinc_fst hwf]
        refine List.chain'_cons.mpr ⟨?_, expandCycle_chain maxOct rest oct n⟩
        unfold wrapRel
        simp [hw]

/-- When the inner cycle completes without `break`, its exit state is the
spelling and octave of the last appended note (or of the entry note if the
signature was empty). -/
theorem expandCycle_exit (maxOct : Nat) :
    ∀ (l : List NoteName) (oct : Nat) (p : NoteName),
      (expandCycle maxOct l oct (some p)).2.broke = false →
        (expandCycle maxOct l oct (some p)).2.prev =
            some (((expandCycle maxOct l oct (some p)).1.getLastD (p, oct)).1) ∧
          (expandCycle maxOct l oct (some p)).2.oct =
            ((expandCycle maxOct l oct (some p)).1.getLastD (p, oct)).2
  | [], oct, p => by
      rw [expandCycle_nil]
      exact fun _ => ⟨rfl, rfl⟩
  | n :: rest, oct, p => by
      by_cases hw : NOTE_TO_SEMITONE n < NOTE_TO_SEMITONE p
      · have hwt : wrapInc (some p) n = true := by simp [wrapInc, hw]
        by_cases hb : oct + 1 ≤ maxOct
        · rw [expandCycle_cons_inc_fst hwt hb, expandCycle_cons_inc_snd hwt hb,
            List.getLastD_cons]
          exact expandCycle_exit maxOct rest (oct + 1) n
        · rw [expandCycle_cons_brk_snd hwt (by omega)]
          intro h
          simp at h
      · have hwf : wrapInc (some p) n = false := by simp [wrapInc, hw]
        rw [expandCycle_cons_noinc_fst hwf, expandCycle_cons_noinc_snd hwf,
          List.getLastD_cons]
        exact expandCycle_exit maxOct rest oct n

/-- Octave bound: entered below the bound, a cycle only appends notes with
octave at most `maxOct`, and exits (unbroken) below the bound. -/
theorem expandCycle_octBound (maxOct : Nat) :
    ∀ (l : List NoteName) (oct : Nat) (prev : Option NoteName), oct ≤ maxOct →
      (∀ e ∈ (expandCycle maxOct l oct prev).1, e.2 ≤ maxOct) ∧
        ((expandCycle maxOct l oct prev).2.broke = false →
          (expandCycle maxOct l oct prev).2.oct ≤ maxOct)
  | [], oct, prev => fun h => by
      rw [expandCycle_nil]
      exact ⟨by simp, fun _ => h⟩
  | n :: rest, oct, prev => fun h => by
      cases hw : wrapInc prev n with
      | true =>
        by_cases hb : oct + 1 ≤ maxOct
        · rw [expandCycle_cons_inc_fst hw hb, expandCycle_cons_inc_snd hw hb]
          have ih := expandCycle_octBound maxOct rest (oct + 1) (some n) hb
          refine ⟨?_, ih.2⟩
          intro e he
          rcases List.mem_cons.mp he with rfl | hmem
          · exact hb
          · exact ih.1 e hmem
        · rw [expandCycle_cons_brk_fst hw (by omega),
            expandCycle_cons_brk_snd hw (by omega)]
          exact ⟨by simp, fun hbr => by simp at hbr⟩
      | false =>
        rw [expandCycle_cons_noinc_fst hw, expandCycle_cons_noinc_snd hw]
        have ih := expandCycle_octBound maxOct rest oct (some n) h
        refine ⟨?_, ih.2⟩
        intro e he
        rcases List.mem_cons.mp he with rfl | hmem
        · exact h
        · exact ih.1 e hmem

theorem getLast?_cons_eq {α : Type _} :
    ∀ (l : List α) (a : α), (a :: l).getLast? = some (l.getLastD a)
  | [], _ => rfl
  | b :: l, a => by
      rw [List.getLastD_cons, List.getLast?_cons_cons]
      exact getLast?_cons_eq l b

/-- Glue a chain `a :: l₁` with a chain rooted at the last element of
`a :: l₁`. -/
theorem chain'_append_link {α : Type _} {R : α → α → Prop} {a : α}
    {l₁ l₂ : List α} (h₁ : List.Chain' R (a :: l₁))
    (h₂ : List.Chain' R (l₁.getLastD a :: l₂)) :
    List.Chain' R ((a :: l₁) ++ l₂) := by
  refine List.Chain'.append h₁ h₂.tail ?_
  intro x hx y hy
  rw [getLast?_cons_eq] at hx
  obtain rfl : x = l₁.getLastD a := (Option.mem_some_iff.mp hx).symm
  exact (List.chain'_cons'.mp h₂).1 y hy

theorem expandLoop_succ (sig : List NoteName) (maxOct fuel oct : Nat)
    (prev : Option NoteName) :
    expandLoop sig maxOct (fuel + 1) oct prev =
      if oct ≤ maxOct then
        if (expandCycle maxOct sig oct prev).2.broke then
          (expandCycle maxOct sig oct prev).1
        else
          (expandCycle maxOct sig oct prev).1 ++
            expandLoop sig maxOct fuel (expandCycle maxOct sig oct prev).2.oct
              (expandCycle maxOct sig oct prev).2.prev
      else [] := rfl

theorem expandLoop_nil_sig (maxOct : Nat) :
    ∀ (fuel oct : Nat) (prev : Option NoteName),
      expandLoop [] maxOct fuel oct prev = []
  | 0, _, _ => rfl
  | fuel + 1, oct, prev => by
      rw [expandLoop_succ, expandCycle_nil]
      by_cases h : oct ≤ maxOct
      · simp [h, expandLoop_nil_sig maxOct fuel oct prev]
      · simp [h]

/-- The outer loop, entered right after appending `(p, oct)`, extends the
`wrapRel`-chain. -/
theorem expandLoop_chain (sig : List NoteName) (maxOct : Nat) :
    ∀ (fuel oct : Nat) (p : NoteName),
      List.Chain' wrapRel ((p, oct) :: expandLoop sig maxOct fuel oct (some p))
  | 0, oct, p => List.chain'_singleton _
  | fuel + 1, oct, p => by
      rw [expandLoop_succ]
      by_cases ho : oct ≤ maxOct
      · rw [if_pos ho]
        by_cases hb : (expandCycle maxOct sig oct (some p)).2.broke
        · rw [if_pos hb]
          exact expandCycle_chain maxOct sig oct p
        · rw [if_neg hb]
          obtain ⟨hprev, hoct⟩ :=
            expandCycle_exit maxOct sig oct p (by simpa using hb)
          rw [hprev, hoct]
          exact chain'_append_link (expandCycle_chain maxOct sig oct p)
            (expandLoop_chain sig maxOct fuel _ _)
      · rw [if_neg ho]
        exact List.chain'_singleton _

/-- The full expansion is a `wrapRel`-chain. -/
theorem expand_chain (sig : List NoteName) (minO maxO : Nat) :
    List.Chain' wrapRel (expand sig minO maxO) := by
  unfold expand
  cases sig with
  | nil => rw [expandLoop_nil_sig]; exact List.chain'_nil
  | cons n rest =>
    cases hf : maxO + 2 - minO with
    | zero => exact List.chain'_nil
    | succ f =>
      rw [expandLoop_succ]
      by_cases ho : minO ≤ maxO
      · rw [if_pos ho]
        have hnone : wrapInc none n = false := rfl
        rw [expandCycle_cons_noinc_fst hnone, expandCycle_cons_noinc_snd hnone]
        by_cases hb : (expandCycle maxO rest minO (some n)).2.broke
        · rw [if_pos hb]
          exact expandCycle_chain maxO rest minO n
        · rw [if_neg hb]
          obtain ⟨hprev, hoct⟩ :=
            expandCycle_exit maxO rest minO n (by simpa using hb)
          rw [hprev, hoct]
          exact chain'_append_link (expandCycle_chain maxO rest minO n)
            (expandLoop_chain (n :: rest) maxO f _ _)
      · rw [if_neg ho]
        exact List.chain'_nil

/-- No appended note ever exceeds the configured `maxOct`. -/
theorem expandLoop_octBound (sig : List NoteName) (maxOct : Nat) :
    ∀ (fuel oct : Nat) (prev : Option NoteName) (e : ExpNote),
      e ∈ expandLoop sig maxOct fuel oct prev → e.2 ≤ maxOct
  | 0, _, _, e => by intro h; simp [expandLoop] at h
  | fuel + 1, oct, prev, e => by
      rw [expandLoop_succ]
      by_cases ho : oct ≤ maxOct
      · rw [if_pos ho]
        by_cases hb : (expandCycle maxOct sig oct prev).2.broke
        · rw [if_pos hb]
          exact fun h => (expandCycle_octBound maxOct sig oct prev ho).1 e h
        · rw [if_neg hb]
          intro h
          rcases List.mem_append.mp h with h1 | h2
          · exact (expandCycle_octBound maxOct sig oct prev ho).1 e h1
          · exact expandLoop_octBound sig maxOct fuel _ _ e h2
      · rw [if_neg ho]
        intro h
        simp at h

theorem expand_octBound (sig : List NoteName) (minO maxO : Nat)
    (e : ExpNote) (he : e ∈ expand sig minO maxO) : e.2 ≤ maxO :=
  expandLoop_octBound sig maxO _ minO none e he

/-- C1: for every 7-note key signature and octave range with
`minOctave ≤ maxOctave`, consecutive elements of the expanded scale have
non-decreasing absolute pitch `octave*12 + pitch class`, and the octave of
the later note is the octave of the earlier one plus one exactly when the
later pitch class is numerically lower than the earlier one (the
wrap-around rule), and unchanged — never decremented — otherwise. -/
theorem claim1_expand_monotone_wrap (sig : List NoteName) (minO maxO : Nat)
    (hlen : sig.length = 7) (hrange : minO ≤ maxO) :
    List.Chain' (fun a b => absPitch a ≤ absPitch b ∧ wrapRel a b)
      (expand sig minO maxO) :=
  (expand_chain sig minO maxO).imp fun _ _ h => ⟨wrapRel_absPitch_le h, h⟩

/-- Witness for C1 at the C-major signature over octaves 3..5. -/
theorem claim1_expand_monotone_wrap_wit :
    cmajor.length = 7 ∧ (3 : Nat) ≤ 5 ∧
      List.Chain' (fun a b => absPitch a ≤ absPitch b ∧ wrapRel a b)
        (expand cmajor 3 5) :=
  ⟨by decide, by decide, claim1_expand_monotone_wrap cmajor 3 5 (by decide) (by decide)⟩

/-- C2: the C-major signature over octaves 3..5 expands to exactly the
21 notes `C3 D3 ... B5` (7 notes per octave, `7 * (5 - 3 + 1)` in total,
last element `"B5"`), and in general the expansion never appends a note
whose octave exceeds `maxOctave` (the in-progress octave step that would
exceed the bound is discarded). -/
theorem claim2_expand_cmajor_21 :
    expand cmajor 3 5 =
      [(C, 3), (D, 3), (E, 3), (F, 3), (G, 3), (A, 3), (B, 3),
       (C, 4), (D, 4), (E, 4), (F, 4), (G, 4), (A, 4), (B, 4),
       (C, 5), (D, 5), (E, 5), (F, 5), (G, 5), (A, 5), (B, 5)] ∧
    (expand cmajor 3 5).map render =
      ["C3", "D3", "E3", "F3", "G3", "A3", "B3",
       "C4", "D4", "E4", "F4", "G4", "A4", "B4",
       "C5", "D5", "E5", "F5", "G5", "A5", "B5"] ∧
    (expand cmajor 3 5).length = 7 * (5 - 3 + 1) ∧
    ((expand cmajor 3 5).map render).getLast? = some "B5" ∧
    ∀ (sig : List NoteName) (minO maxO : Nat) (e : ExpNote),
      e ∈ expand sig minO maxO → e.2 ≤ maxO := by
  refine ⟨by decide, ?_, by decide, ?_, expand_octBound⟩
  · rfl
  · rfl

/-- Witness for the octave-bound conjunct of C2 at a concrete note of the
concrete C-major expansion. -/
theorem claim2_expand_cmajor_21_wit :
    ((B, 5) : ExpNote) ∈ expand cmajor 3 5 ∧ ((B, 5) : ExpNote).2 ≤ 5 :=
  ⟨by decide, claim2_expand_cmajor_21.2.2.2.2 cmajor 3 5 (B, 5) (by decide)⟩

/-! ## Chunk sizes (claim C3) and the arpeggio index walk (claim C4) -/

theorem arpIndices_length (len : Nat) :
    ∀ (k i c : Nat), (arpIndices len k i c).length = k
  | 0, _, _ => rfl
  | k + 1, i, c => by simp [arpIndices, arpIndices_length len k]

theorem random_chunk_length (scale : List ExpNote) (size : Nat)
    (draw : Nat → Nat) : (random_chunk scale size draw).length = size := by
  simp [random_chunk]

theorem scale_chunk_length (scale : List ExpNote) (size start : Nat)
    (asc : Bool) : (scale_chunk scale size start asc).length = size := by
  simp only [scale_chunk, List.length_map, List.length_range]

theorem arpeggio_chunk_length (scale : List ExpNote) (size root : Nat) :
    (arpeggio_chunk scale size root).length = size := by
  simp [arpeggio_chunk, arpeggioLike, arpeggio_notes, arpIndices_length]

theorem chord_chunk_modular_length (scale : List ExpNote) (size root : Nat) :
    (chord_chunk_modular scale size root).length = size := by
  simp [chord_chunk_modular, arpeggioLike, arpeggio_notes, arpIndices_length]

theorem triad_length (scale : List ExpNote) (root inv : Nat) :
    (triad scale root inv).length = 3 := by
  unfold triad
  by_cases h0 : inv = 0
  · simp [h0]
  · by_cases h1 : inv = 1 <;> simp [h0, h1]

/-- C3 counterexample: in `tones9-la0-modular.py` the draw `size = 4`,
`root = 0` is inside the legal `randint(3, 17)` / `randrange(len)` ranges,
yet `chord_chunk` returns 4 notes, not exactly 3. -/
theorem claim3_chord_chunk_cex :
    ((3 : Nat) ≤ 4 ∧ (4 : Nat) ≤ 17 ∧ 0 < (expand cmajor 3 5).length) ∧
      (chord_chunk_modular (expand cmajor 3 5) 4 0).length ≠ 3 := by
  refine ⟨⟨by decide, by decide, by decide⟩, ?_⟩
  rw [chord_chunk_modular_length]
  decide

/-- C3 (amended): `random_chunk` always returns length in [1,7],
`scale_chunk` in [3,12], `arpeggio_chunk` in [3,17]; `chord_chunk` of
`practice.py` (= `Gen.triad`) returns exactly 3 notes, while `chord_chunk`
of `tones9-la0-modular.py` returns its drawn size in [3,17], exactly like
`arpeggio_chunk`. -/
theorem claim3_chunk_lengths :
    (∀ (scale : List ExpNote) (size : Nat) (draw : Nat → Nat),
        1 ≤ size → size ≤ 7 →
          1 ≤ (random_chunk scale size draw).length ∧
            (random_chunk scale size draw).length ≤ 7) ∧
    (∀ (scale : List ExpNote) (size start : Nat) (asc : Bool),
        3 ≤ size → size ≤ 12 →
          3 ≤ (scale_chunk scale size start asc).length ∧
            (scale_chunk scale size start asc).length ≤ 12) ∧
    (∀ (scale : List ExpNote) (size root : Nat),
        3 ≤ size → size ≤ 17 →
          3 ≤ (arpeggio_chunk scale size root).length ∧
            (arpeggio_chunk scale size root).length ≤ 17) ∧
    (∀ (scale : List ExpNote) (root inv : Nat),
        (triad scale root inv).length = 3) ∧
    (∀ (scale : List ExpNote) (size root : Nat),
        3 ≤ size → size ≤ 17 →
          3 ≤ (chord_chunk_modular scale size root).length ∧
            (chord_chunk_modular scale size root).length ≤ 17) := by
  refine ⟨?_, ?_, ?_, triad_length, ?_⟩
  · intro scale size draw h1 h7
    rw [random_chunk_length]
    omega
  · intro scale size start asc h3 h12
    rw [scale_chunk_length]
    omega
  · intro scale size root h3 h17
    rw [arpeggio_chunk_length]
    omega
  · intro scale size root h3 h17
    rw [chord_chunk_modular_length]
    omega

/-- Witness for C3 with concrete legal draws for each generator. -/
theorem claim3_chunk_lengths_wit :
    ((1 : Nat) ≤ 3 ∧ (3 : Nat) ≤ 7 ∧
      1 ≤ (random_chunk (expand cmajor 3 5) 3 fun _ => 0).length ∧
        (random_chunk (expand cmajor 3 5) 3 fun _ => 0).length ≤ 7) ∧
    ((3 : Nat) ≤ 5 ∧ (5 : Nat) ≤ 17 ∧
      3 ≤ (arpeggio_chunk (expand cmajor 3 5) 5 0).length ∧
        (arpeggio_chunk (expand cmajor 3 5) 5 0).length ≤ 17) :=
  ⟨⟨by decide, by decide,
    claim3_chunk_lengths.1 (expand cmajor 3 5) 3 (fun _ => 0) (by decide) (by decide)⟩,
   ⟨by decide, by decide,
    claim3_chunk_lengths.2.2.1 (expand cmajor 3 5) 5 0 (by decide) (by decide)⟩⟩

theorem cycOffs_add_three (m : Nat) : cycOffs (m + 3) = cycOffs m + 7 := by
  unfold cycOffs
  have h1 : (m + 3) / 3 = m / 3 + 1 := by omega
  have h2 : (m + 3) % 3 = m % 3 := by omega
  rw [h1, h2]
  omega

theorem cycOffsFrom_three (i : Nat) : cycOffsFrom i 3 = 7 := by
  show intervals.getD (i % 3) 0 +
      (intervals.getD ((i + 1) % 3) 0 + (intervals.getD ((i + 2) % 3) 0 + 0)) = 7
  have h3 : i % 3 = 0 ∨ i % 3 = 1 ∨ i % 3 = 2 := by omega
  rcases h3 with h | h | h
  · have e1 : (i + 1) % 3 = 1 := by omega
    have e2 : (i + 2) % 3 = 2 := by omega
    rw [h, e1, e2]
    decide
  · have e1 : (i + 1) % 3 = 2 := by omega
    have e2 : (i + 2) % 3 = 0 := by omega
    rw [h, e1, e2]
    decide
  · have e1 : (i + 1) % 3 = 0 := by omega
    have e2 : (i + 2) % 3 = 1 := by omega
    rw [h, e1, e2]
    decide

theorem cycOffsFrom_add_three :
    ∀ (j i : Nat), cycOffsFrom i (j + 3) = cycOffsFrom i j + 7
  | 0, i => by
      rw [show (0 + 3 : Nat) = 3 from rfl, cycOffsFrom_three i]
      rfl
  | j + 1, i => by
      show intervals.getD (i % 3) 0 + cycOffsFrom (i + 1) (j + 3) =
        intervals.getD (i % 3) 0 + cycOffsFrom (i + 1) j + 7
      rw [cycOffsFrom_add_three j (i + 1)]
      omega

theorem cycOffsFrom_zero (j : Nat) : cycOffsFrom 0 j = cycOffs j := by
  induction j using Nat.strong_induction_on with
  | _ j ih =>
    by_cases h : j < 3
    · interval_cases j <;> rfl
    · have hj : j = j - 3 + 3 := by omega
      rw [hj, cycOffsFrom_add_three, cycOffs_add_three, ih (j - 3) (by omega)]

/-- The `j`-th cursor position of the arpeggio walk started at `c` with
pattern phase `i` is `c` advanced by the cumulative cyclic offset, mod the
scale length. -/
theorem arpIndices_get (len : Nat) (hlen : 0 < len) :
    ∀ (k i c : Nat), c < len → ∀ j, j < k →
      (arpIndices len k i c)[j]? = some ((c + cycOffsFrom i j) % len)
  | 0, _, _ => fun _ j hj => absurd hj (by omega)
  | k + 1, i, c => fun hc j hj => by
      cases j with
      | zero =>
        show (arpIndices len (k + 1) i c)[0]? = some ((c + 0) % len)
        rw [arpIndices, List.getElem?_cons_zero, Nat.add_zero,
          Nat.mod_eq_of_lt hc]
      | succ j =>
        have hc' : wrapNat (c + intervals.getD (i % 3) 0) len < len := by
          unfold wrapNat
          exact Nat.mod_lt _ hlen
        have ih := arpIndices_get len hlen k (i + 1) _ hc' j (by omega)
        rw [arpIndices, List.getElem?_cons_succ, ih]
        congr 1
        show (wrapNat (c + intervals.getD (i % 3) 0) len + cycOffsFrom (i + 1) j) % len =
          (c + (intervals.getD (i % 3) 0 + cycOffsFrom (i + 1) j)) % len
        unfold wrapNat
        rw [Nat.add_mod_right, Nat.mod_add_mod, Nat.add_assoc]

/-- C4: for any scale, any size in [3,17] and any root index in
`[0, len)`, the arpeggio chunk has exactly `size` notes, and its `j`-th
note is the scale entry at index `(root + cycOffs j) % len`, the cumulative
cyclic `(2,2,3)` walk (so over a 21-note scale from root 0 the indices run
`0,2,4,7,9,11,14,...` mod 21). -/
theorem claim4_arpeggio_walk (scale : List ExpNote) (size root : Nat)
    (h3 : 3 ≤ size) (h17 : size ≤ 17) (hroot : root < scale.length) :
    (arpeggio_chunk scale size root).length = size ∧
    ∀ j, j < size →
      (arpeggio_chunk scale size root)[j]? =
        some (scale.getD ((root + cycOffs j) % scale.length) dfltNote) := by
  refine ⟨arpeggio_chunk_length scale size root, ?_⟩
  intro j hj
  have hlen : 0 < scale.length := by omega
  have h := arpIndices_get scale.length hlen size 0 root hroot j hj
  rw [cycOffsFrom_zero] at h
  show ((arpIndices scale.length size 0 root).map
      fun j => scale.getD j dfltNote)[j]? = _
  rw [List.getElem?_map, h]
  rfl

/-- Witness for C4 over the 21-note C-major scale, root 0, size 7 — the
seventh walk index is 14. -/
theorem claim4_arpeggio_walk_wit :
    ((3 : Nat) ≤ 7 ∧ (7 : Nat) ≤ 17 ∧ 0 < (expand cmajor 3 5).length) ∧
      (arpeggio_chunk (expand cmajor 3 5) 7 0)[6]? =
        some ((expand cmajor 3 5).getD ((0 + cycOffs 6) % (expand cmajor 3 5).length)
          dfltNote) :=
  ⟨⟨by decide, by decide, by decide⟩,
   (claim4_arpeggio_walk (expand cmajor 3 5) 7 0 (by decide) (by decide)
      (by decide)).2 6 (by decide)⟩

/-! ## Triads with inversion (claim C5) -/

theorem strictAsc_chain' :
    ∀ l : List ExpNote, strictAsc l = true →
      List.Chain' (fun a b => absPitch a < absPitch b) l
  | [], _ => List.chain'_nil
  | [a], _ => List.chain'_singleton a
  | a :: b :: t, h => by
      unfold strictAsc at h
      rw [Bool.and_eq_true] at h
      exact List.chain'_cons.mpr
        ⟨of_decide_eq_true h.1, strictAsc_chain' (b :: t) h.2⟩

/-- Every key signature of the table expands (over the default octaves
3..5) to a scale with strictly increasing absolute pitch. -/
theorem keySigs_strict :
    ∀ sig ∈ KEY_SIGNATURES,
      List.Chain' (fun a b => absPitch a < absPitch b) (expand sig 3 5) := by
  intro sig hs
  refine strictAsc_chain' _ ?_
  have hall : KEY_SIGNATURES.all (fun s => strictAsc (expand s 3 5)) = true := by
    decide
  exact List.all_eq_true.mp hall sig hs

theorem absPitch_getD_lt {l : List ExpNote}
    (hpw : List.Pairwise (fun a b => absPitch a < absPitch b) l)
    {i j : Nat} (hij : i < j) (hj : j < l.length) :
    absPitch (l.getD i dfltNote) < absPitch (l.getD j dfltNote) := by
  have hi : i < l.length := by omega
  rw [List.getD_eq_getElem?_getD, List.getD_eq_getElem?_getD,
    List.getElem?_eq_getElem hi, List.getElem?_eq_getElem hj]
  exact List.pairwise_iff_getElem.mp hpw i j hi hj hij

/-- C5: over any of the program's expanded scales, with the root drawn by
`randrange(0, len - 9)` and an inversion in {0,1,2}, `Gen.triad` returns
exactly the 3 scale entries at `[root, root+2, root+4]` (root position),
`[root+2, root+4, root+7]` (first inversion) or `[root+4, root+7, root+9]`
(second inversion), and their absolute pitches are strictly ascending. -/
theorem claim5_triad_inversions (sig : List NoteName) (root inv : Nat)
    (hsig : sig ∈ KEY_SIGNATURES)
    (hroot : root + 9 < (expand sig 3 5).length) (hinv : inv < 3) :
    (triad (expand sig 3 5) root inv).length = 3 ∧
    triad (expand sig 3 5) root inv =
      (if inv = 0 then [root, root + 2, root + 4]
       else if inv = 1 then [root + 2, root + 4, root + 7]
       else [root + 4, root + 7, root + 9]).map
        (fun i => (expand sig 3 5).getD i dfltNote) ∧
    List.Chain' (fun a b => absPitch a < absPitch b)
      (triad (expand sig 3 5) root inv) := by
  have hchain := keySigs_strict sig hsig
  haveI : IsTrans ExpNote (fun a b => absPitch a < absPitch b) :=
    ⟨fun _ _ _ h1 h2 => lt_trans h1 h2⟩
  have hpw := List.chain'_iff_pairwise.mp hchain
  refine ⟨triad_length _ root inv, rfl, ?_⟩
  unfold triad
  by_cases h0 : inv = 0
  · rw [if_pos h0]
    refine List.chain'_cons.mpr ⟨?_, List.chain'_cons.mpr ⟨?_, List.chain'_singleton _⟩⟩
    · exact absPitch_getD_lt hpw (by omega) (by omega)
    · exact absPitch_getD_lt hpw (by omega) (by omega)
  · rw [if_neg h0]
    by_cases h1 : inv = 1
    · rw [if_pos h1]
      refine List.chain'_cons.mpr ⟨?_, List.chain'_cons.mpr ⟨?_, List.chain'_singleton _⟩⟩
      · exact absPitch_getD_lt hpw (by omega) (by omega)
      · exact absPitch_getD_lt hpw (by omega) (by omega)
    · rw [if_neg h1]
      refine List.chain'_cons.mpr ⟨?_, List.chain'_cons.mpr ⟨?_, List.chain'_singleton _⟩⟩
      · exact absPitch_getD_lt hpw (by omega) (by omega)
      · exact absPitch_getD_lt hpw (by omega) (by omega)

/-- Witness for C5: C major, root 0, first inversion. -/
theorem claim5_triad_inversions_wit :
    (cmajor ∈ KEY_SIGNATURES ∧ 0 + 9 < (expand cmajor 3 5).length ∧ (1 : Nat) < 3) ∧
    ((triad (expand cmajor 3 5) 0 1).length = 3 ∧
      triad (expand cmajor 3 5) 0 1 =
        (if (1 : Nat) = 0 then [0, 0 + 2, 0 + 4]
         else if (1 : Nat) = 1 then [0 + 2, 0 + 4, 0 + 7]
         else [0 + 4, 0 + 7, 0 + 9]).map
          (fun i => (expand cmajor 3 5).getD i dfltNote) ∧
      List.Chain' (fun a b => absPitch a < absPitch b)
        (triad (expand cmajor 3 5) 0 1)) :=
  ⟨⟨by decide, by decide, by decide⟩,
   claim5_triad_inversions cmajor 0 1 (by decide) (by decide) (by decide)⟩

/-! ## Cadence chords (claim C6) -/

/-- C6: for every tonality the cadence is the fixed chord sequence on
1-based scale degrees `[6,2,3,6]` (minor) or `[1,4,5,1]` (major), each
chord being the expanded-scale entries at `[degree-1, degree+1, degree+3]`
(i.e. 0-based `[root, root+2, root+4]`). -/
theorem claim6_cadence_degrees (sig : List NoteName) (scale : List ExpNote)
    (ton : Tonality) :
    (cadence sig scale ton).map Prod.fst =
      (if ton = Tonality.minor then [6, 2, 3, 6] else [1, 4, 5, 1]).map
        fun d => [scale.getD (d - 1) dfltNote, scale.getD (d + 1) dfltNote,
                  scale.getD (d + 3) dfltNote] := by
  cases ton <;> rfl

/-! ## Label ambiguity (claim C7) -/

theorem mem_qualSet {prog : List ChordName} {k : Solfege × Pos} {q : Quality} :
    q ∈ qualSet prog k ↔
      ∃ c ∈ prog, k ∈ chordPairs c ∧ (CHORD_DEFS c).quality = q := by
  unfold qualSet
  rw [List.mem_toFinset, List.mem_map]
  constructor
  · rintro ⟨c, hc, rfl⟩
    rw [List.mem_filter] at hc
    exact ⟨c, List.mem_dedup.mp hc.1, of_decide_eq_true hc.2, rfl⟩
  · rintro ⟨c, hc, hk, rfl⟩
    exact ⟨c, List.mem_filter.mpr ⟨List.mem_dedup.mpr hc, decide_eq_true hk⟩, rfl⟩

/-- The qualifier test of `get_random_melody_note` is exactly "the pair
occurs in the progression under two different qualities". -/
theorem needsQualifier_iff (prog : List ChordName) (k : Solfege × Pos) :
    needsQualifier prog k = true ↔ ambiguousSpec prog k := by
  unfold needsQualifier ambiguousSpec
  rw [decide_eq_true_eq, Finset.one_lt_card]
  constructor
  · rintro ⟨q1, hq1, q2, hq2, hne⟩
    obtain ⟨c1, hc1, hk1, rfl⟩ := mem_qualSet.mp hq1
    obtain ⟨c2, hc2, hk2, rfl⟩ := mem_qualSet.mp hq2
    exact ⟨c1, hc1, c2, hc2, hne, hk1, hk2⟩
  · rintro ⟨c1, hc1, c2, hc2, hne, hk1, hk2⟩
    exact ⟨_, mem_qualSet.mpr ⟨c1, hc1, hk1, rfl⟩,
           _, mem_qualSet.mpr ⟨c2, hc2, hk2, rfl⟩, hne⟩

/-- C7: the emitted label carries the quality qualifier if and only if the
melody note's `(solfège degree, position-in-chord)` pair occurs in the
active progression under more than one chord quality; the with-qualifier
and without-qualifier labels are distinct strings.  (The ambiguity table is
a function of the progression alone — `needsQualifier` takes only the
progression and the pair — matching "computed once per progression".) -/
theorem claim7_label_qualifier (prog : List ChordName) (c : ChordName)
    (chosen : Solfege) (hc : c ∈ prog)
    (hd : chosen ∈ (CHORD_DEFS c).degrees) :
    melodyLabel prog c chosen =
      (if ambiguousSpec prog
          (chosen, posOf ((CHORD_DEFS c).degrees.indexOf chosen)) then
        SOLFEGE_PRON chosen ++ ", " ++
          posStr (posOf ((CHORD_DEFS c).degrees.indexOf chosen)) ++ ", " ++
          qualityStr (CHORD_DEFS c).quality
      else
        SOLFEGE_PRON chosen ++ ", " ++
          posStr (posOf ((CHORD_DEFS c).degrees.indexOf chosen))) ∧
    SOLFEGE_PRON chosen ++ ", " ++
        posStr (posOf ((CHORD_DEFS c).degrees.indexOf chosen)) ++ ", " ++
        qualityStr (CHORD_DEFS c).quality ≠
      SOLFEGE_PRON chosen ++ ", " ++
        posStr (posOf ((CHORD_DEFS c).degrees.indexOf chosen)) := by
  constructor
  · unfold melodyLabel
    by_cases h : ambiguousSpec prog
        (chosen, posOf ((CHORD_DEFS c).degrees.indexOf chosen))
    · have hb : needsQualifier prog
          (chosen, posOf ((CHORD_DEFS c).degrees.indexOf chosen)) = true :=
        (needsQualifier_iff _ _).mpr h
      simp only [hb, if_pos h, if_true]
    · have hb : needsQualifier prog
          (chosen, posOf ((CHORD_DEFS c).degrees.indexOf chosen)) = false := by
        rw [← Bool.not_eq_true]
        exact fun hh => h ((needsQualifier_iff _ _).mp hh)
      simp only [hb, if_neg h, Bool.false_eq_true, if_false]
  · intro heq
    have hlen := congrArg String.length heq
    simp only [String.length_append] at hlen
    have hq : 0 < (qualityStr (CHORD_DEFS c).quality).length := by
      cases (CHORD_DEFS c).quality <;> decide
    omega

/-- Witness for C7: in `minor_swing`, `la` at position 1 occurs only under
minor chords, so its label omits the qualifier. -/
theorem claim7_label_qualifier_wit :
    ChordName.la_minor ∈ progChords ProgName.minor_swing ∧
    Solfege.La ∈ (CHORD_DEFS ChordName.la_minor).degrees ∧
    melodyLabel (progChords ProgName.minor_swing) ChordName.la_minor
      Solfege.La = "la, 1" := by
  refine ⟨by decide, by decide, ?_⟩
  have h := (claim7_label_qualifier (progChords ProgName.minor_swing)
    ChordName.la_minor Solfege.La (by decide) (by decide)).1
  rw [h, if_neg (by decide)]
  rfl

/-! ## Cadence scheduling in the session loop (claim C8) -/

theorem sessionTrace_eq (K : Nat) :
    ∀ (gens : List (List ExpNote)) (count : Nat),
      sessionTrace K gens count =
        cadencedPlays K
          ((gens.filter fun c => decide (3 ≤ c.length)).enumFrom count)
  | [], _ => rfl
  | c :: rest, count => by
      by_cases h : c.length < 3
      · rw [sessionTrace, if_pos h]
        have hfilter : (c :: rest).filter (fun x => decide (3 ≤ x.length)) =
            rest.filter fun x => decide (3 ≤ x.length) := by
          rw [List.filter_cons]
          have hf : decide (3 ≤ c.length) = false := by
            rw [decide_eq_false_iff_not]
            omega
          simp [hf]
        rw [hfilter]
        exact sessionTrace_eq K rest count
      · rw [sessionTrace, if_neg h]
        have hfilter : (c :: rest).filter (fun x => decide (3 ≤ x.length)) =
            c :: rest.filter fun x => decide (3 ≤ x.length) := by
          rw [List.filter_cons]
          have hf : decide (3 ≤ c.length) = true := by
            rw [decide_eq_true_eq]
            omega
          simp [hf]
        rw [hfilter, List.enumFrom_cons, sessionTrace_eq K rest (count + 1)]
        simp only [cadencedPlays, List.flatMap_cons]
        simp [List.append_assoc]

/-- C8: the session loop, started with chunk counter 0, produces exactly
the playable chunks (generated length ≥ 3) numbered consecutively, with
the cadence exactly before those whose counter is `0 mod K` (i.e. at
chunk indices `0, K, 2K, ...`); discarded generations (length < 3) emit
nothing, trigger no cadence, and do not advance the counter. -/
theorem claim8_cadence_schedule (K : Nat) (gens : List (List ExpNote)) :
    sessionTrace K gens 0 =
      cadencedPlays K
        ((gens.filter fun c => decide (3 ≤ c.length)).enumFrom 0) :=
  sessionTrace_eq K gens 0

/-! ## The interruptible wait (claim C9) -/

/-- C9 counterexample: stop never requested, paused during `[0, 200)` ms,
duration 100 ms.  The wait pauses immediately, resumes at 200 ms, sleeps
one 50 ms tick and then finds the *wall-clock* deadline already passed: it
returns `True` (wait "completed") at 250 ms although only 50 ms of
non-paused waiting happened — the wait's elapsed time advanced while
paused, contradicting the claim. -/
theorem claim9_wait_cex :
    wait_with_pause (fun _ => false) (fun t => decide (t < 200)) 0 100 10 =
        some (true, 250, 50, [WEv.pauseAll, WEv.resumeAll]) ∧
      50 < 100 := by
  constructor
  · rfl
  · decide

/-- C9 (amended): the wait polls the flags at 50 ms granularity in the
main loop (100 ms while paused); a requested stop makes it return `False`
at the very poll that observes it, abandoning the wait; observing `paused`
emits `pauseAll` before anything else and the loop blocks until unpaused
or stopped; but the deadline is wall-clock: a successful (`True`) wait
only guarantees that `duration` of *wall-clock* time — including any
paused spans — has elapsed. -/
theorem claim9_wait_behavior :
    (∀ (sF pF : Nat → Bool) (st dur fuel clock : Nat),
        clock - st < dur → sF clock = true →
          waitLoop sF pF st dur (fuel + 1) clock = some (false, clock, 0, [])) ∧
    (∀ (sF pF : Nat → Bool) (st dur fuel clock : Nat) (c act : Nat)
        (evs : List WEv),
        waitLoop sF pF st dur fuel clock = some (true, c, act, evs) →
          dur ≤ c - st) ∧
    (∀ (sF pF : Nat → Bool) (st dur fuel clock : Nat) (r : Bool)
        (c act : Nat) (evs : List WEv),
        clock - st < dur → sF clock = false → pF clock = true →
        waitLoop sF pF st dur (fuel + 1) clock = some (r, c, act, evs) →
          ∃ tl, evs = WEv.pauseAll :: tl) := by
  refine ⟨?_, ?_, ?_⟩
  · intro sF pF st dur fuel clock h1 h2
    rw [waitLoop, if_pos h1, h2]
    rfl
  · intro sF pF st dur fuel
    induction fuel with
    | zero =>
      intro clock c act evs h
      rw [waitLoop] at h
      exact absurd h (by simp)
    | succ n ih =>
      intro clock c act evs h
      rw [waitLoop] at h
      by_cases h1 : clock - st < dur
      · rw [if_pos h1] at h
        cases h2 : sF clock with
        | true =>
          rw [h2] at h
          simp at h
        | false =>
          rw [h2] at h
          simp only [Bool.false_eq_true, if_false] at h
          cases h3 : pF clock with
          | true =>
            rw [h3] at h
            simp only [if_true] at h
            cases hpw : pauseWait sF pF n clock with
            | none => rw [hpw] at h; simp at h
            | some pr =>
              obtain ⟨b, c'⟩ := pr
              cases b with
              | false => rw [hpw] at h; simp at h
              | true =>
                rw [hpw] at h
                dsimp only [] at h
                cases hrec : waitLoop sF pF st dur n (c' + 50) with
                | none => rw [hrec] at h; simp at h
                | some q =>
                  obtain ⟨r2, c2, act2, evs2⟩ := q
                  rw [hrec] at h
                  simp only [Option.some.injEq, Prod.mk.injEq] at h
                  obtain ⟨hr, hc, -, -⟩ := h
                  have hd := ih (c' + 50) c2 act2 evs2 (by rw [hrec, hr])
                  omega
          | false =>
            rw [h3] at h
            simp only [Bool.false_eq_true, if_false] at h
            cases hrec : waitLoop sF pF st dur n (clock + 50) with
            | none => rw [hrec] at h; simp at h
            | some q =>
              obtain ⟨r2, c2, act2, evs2⟩ := q
              rw [hrec] at h
              simp only [Option.some.injEq, Prod.mk.injEq] at h
              obtain ⟨hr, hc, -, -⟩ := h
              have hd := ih (clock + 50) c2 act2 evs2 (by rw [hrec, hr])
              omega
      · rw [if_neg h1] at h
        simp only [Option.some.injEq, Prod.mk.injEq] at h
        obtain ⟨-, hc, -, -⟩ := h
        omega
  · intro sF pF st dur fuel clock r c act evs h1 h2 h3 h
    rw [waitLoop, if_pos h1, h2] at h
    simp only [Bool.false_eq_true, if_false, h3, if_true] at h
    cases hpw : pauseWait sF pF fuel clock with
    | none => rw [hpw] at h; simp at h
    | some pr =>
      obtain ⟨b, c'⟩ := pr
      cases b with
      | false =>
        rw [hpw] at h
        simp only [Option.some.injEq, Prod.mk.injEq] at h
        obtain ⟨-, -, -, hevs⟩ := h
        exact ⟨[], hevs.symm⟩
      | true =>
        rw [hpw] at h
        dsimp only [] at h
        cases hrec : waitLoop sF pF st dur fuel (c' + 50) with
        | none => rw [hrec] at h; simp at h
        | some q =>
          obtain ⟨r2, c2, act2, evs2⟩ := q
          rw [hrec] at h
          simp only [Option.some.injEq, Prod.mk.injEq] at h
          obtain ⟨-, -, -, hevs⟩ := h
          exact ⟨WEv.resumeAll :: evs2, hevs.symm⟩

/-- Witness for C9 (first conjunct): stop already requested at the first
poll of a 100 ms wait makes it return `False` immediately. -/
theorem claim9_wait_behavior_wit :
    ((0 : Nat) - 0 < 100 ∧ (fun _ : Nat => true) 0 = true) ∧
      waitLoop (fun _ => true) (fun _ => false) 0 100 (9 + 1) 0 =
        some (false, 0, 0, []) :=
  ⟨⟨by decide, rfl⟩,
   claim9_wait_behavior.1 (fun _ => true) (fun _ => false) 0 100 9 0
     (by decide) rfl⟩

/-! ## Solfège to note name (claim C10) -/

theorem targetSemi_lt (k : PKey) (s : Solfege) : targetSemi k s < 12 := by
  obtain ⟨sigk, mk⟩ := k
  cases mk with
  | major =>
    show (NOTE_TO_SEMITONE (sigk.getD 0 NoteName.C) + SOLFEGE_TO_SEMI s) % 12 < 12
    exact Nat.mod_lt _ (by omega)
  | minor =>
    show (((NOTE_TO_SEMITONE (sigk.getD 5 NoteName.C) : Int) +
        SOLFEGE_TO_SEMI s - MINOR_MODE_OFFSET) % 12).toNat < 12
    have h1 : (0 : Int) ≤
        ((NOTE_TO_SEMITONE (sigk.getD 5 NoteName.C) : Int) +
          SOLFEGE_TO_SEMI s - MINOR_MODE_OFFSET) % 12 :=
      Int.emod_nonneg _ (by omega)
    have h2 : ((NOTE_TO_SEMITONE (sigk.getD 5 NoteName.C) : Int) +
          SOLFEGE_TO_SEMI s - MINOR_MODE_OFFSET) % 12 < 12 :=
      Int.emod_lt_of_pos _ (by omega)
    omega

/-- For every pitch class 0-11, the two search loops find a spelling with
that pitch class (so the `return f"C{octave}"` fallback is unreachable). -/
theorem findSpelling_found (t : Nat) (ht : t < 12) :
    ∃ n, findSpelling t = some n ∧ NOTE_TO_SEMITONE n = t := by
  have hall : ∀ t' < 12,
      (findSpelling t').map NOTE_TO_SEMITONE = some t' := by decide
  have h := hall t ht
  cases hf : findSpelling t with
  | none => rw [hf] at h; exact absurd h (by simp)
  | some n =>
    rw [hf] at h
    exact ⟨n, rfl, by simpa using h⟩

/-- C10: for every solfège syllable of the table, every octave and both
modes, `Key.solfege_to_note` returns a note spelled from the semitone
table, suffixed with exactly the requested octave, whose pitch class is
`(pc(sig[0]) + offset) % 12` in major mode and
`(pc(sig[5]) + offset - 9) % 12` in minor mode (that is `targetSemi`,
which mirrors those formulas verbatim); in particular the search loops
succeed and the final `"C{octave}"` fallback branch is never taken. -/
theorem claim10_solfege_to_note (k : PKey) (s : Solfege) (octave : Nat)
    (hsig : k.sig.length = 7) :
    ∃ n : NoteName,
      findSpelling (targetSemi k s) = some n ∧
      NOTE_TO_SEMITONE n = targetSemi k s ∧
      solfege_to_note k s octave = spellStr n ++ toString octave := by
  obtain ⟨n, hf, hsemi⟩ := findSpelling_found (targetSemi k s) (targetSemi_lt k s)
  refine ⟨n, hf, hsemi, ?_⟩
  unfold solfege_to_note
  rw [hf]

/-- Witness for C10: C-major signature in minor mode, syllable `do`,
octave 4 — the tonic is `A` (pitch class 9), so `do` maps to pitch class
`(9 + 0 - 9) % 12 = 0`, spelled `C4`. -/
theorem claim10_solfege_to_note_wit :
    (PKey.mk cmajor PMode.minor).sig.length = 7 ∧
      solfege_to_note ⟨cmajor, PMode.minor⟩ Solfege.Do 4 = "C4" := by
  refine ⟨by decide, ?_⟩
  obtain ⟨n, hf, -, heq⟩ :=
    claim10_solfege_to_note ⟨cmajor, PMode.minor⟩ Solfege.Do 4 (by decide)
  have hc : findSpelling (targetSemi ⟨cmajor, PMode.minor⟩ Solfege.Do) =
      some NoteName.C := by decide
  rw [hc] at hf
  injection hf with hn
  rw [heq, ← hn]
  rfl
